import Mathlib

/-!
Verification of the lemonade-stand simulation core (`src/lemonade.py`).

The Python program is shallowly embedded over exact rationals: every money
amount and price is a `ℚ`, quantities are `ℤ`, and Python's `round(x, 2)`
becomes `round2`.  The only non-rational operation of the source,
`math.floor(potential * (unit / price ** 1.5))` in `get_sales_amount`, is
encoded with an executable integer square root:
for `x ≥ 0` and `p > 0` one has `⌊x / p^1.5⌋ = isqrt ⌊x² / p³⌋`, which theorem
`get_sales_amount_spec` proves against the direct real-number formula.

The weekly loop of `start_lemonade` becomes `week_step`; the random draws
(forecast index, temperature, the three rounded `uniform(-1.50, 1.50)` price
perturbations) and the validated console inputs (three purchase quantities
and the price) are the fields of a `WeekInput`.  `week_step` returns `none`
when a value lies outside the range the source guarantees for it (the range
of `randrange`/`uniform` for the random draws, the re-prompt loops for the
purchase quantities and the price), so the traces `play_season` accepts are
exactly the runs of the program.
-/

set_option maxRecDepth 400000

namespace Lemonade

/-- Fuelled integer square root (largest `r` with `r * r ≤ n`), structurally
recursive so that concrete witnesses evaluate inside the kernel. -/
def isqrtAux : ℕ → ℕ → ℕ
  | 0, _ => 0
  | fuel+1, n =>
    if n < 2 then n
    else
      let r := 2 * isqrtAux fuel (n / 4)
      if (r + 1) * (r + 1) ≤ n then r + 1 else r

/-- Integer square root: the largest `r` with `r * r ≤ n`. -/
def isqrt (n : ℕ) : ℕ := isqrtAux n n

theorem isqrtAux_spec (fuel : ℕ) : ∀ n : ℕ, n ≤ fuel →
    isqrtAux fuel n * isqrtAux fuel n ≤ n ∧
      n < (isqrtAux fuel n + 1) * (isqrtAux fuel n + 1) := by
  induction fuel with
  | zero =>
    intro n hn
    have h0 : n = 0 := Nat.le_zero.mp hn
    subst h0
    simp [isqrtAux]
  | succ fuel ih =>
    intro n hn
    by_cases h2 : n < 2
    · have : isqrtAux (fuel + 1) n = n := by
        simp [isqrtAux, h2]
      rw [this]
      interval_cases n <;> simp
    · have hrec : n / 4 ≤ fuel := by omega
      obtain ⟨h1, h1'⟩ := ih (n / 4) hrec
      have hdiv : 4 * (n / 4) ≤ n ∧ n < 4 * (n / 4) + 4 := by omega
      set r := isqrtAux fuel (n / 4) with hr
      by_cases hle : (2 * r + 1) * (2 * r + 1) ≤ n
      · have hout : isqrtAux (fuel + 1) n = 2 * r + 1 := by
          simp [isqrtAux, h2, ← hr, hle]
        rw [hout]
        refine ⟨hle, ?_⟩
        have e : (2 * r + 1 + 1) * (2 * r + 1 + 1) = 4 * ((r + 1) * (r + 1)) := by ring
        rw [e]
        omega
      · have hout : isqrtAux (fuel + 1) n = 2 * r := by
          simp [isqrtAux, h2, ← hr, hle]
        rw [hout]
        have e : 2 * r * (2 * r) = 4 * (r * r) := by ring
        have e' : (2 * r + 1) * (2 * r + 1) = 4 * (r * r) + 4 * r + 1 := by ring
        constructor
        · rw [e]
          omega
        · rw [e'] at hle ⊢
          omega

theorem isqrt_spec (n : ℕ) :
    isqrt n * isqrt n ≤ n ∧ n < (isqrt n + 1) * (isqrt n + 1) :=
  isqrtAux_spec n n le_rfl

theorem le_isqrt_of_sq_le {k n : ℕ} (h : k * k ≤ n) : k ≤ isqrt n := by
  by_contra hlt
  have h1 : isqrt n + 1 ≤ k := by omega
  have h2 : (isqrt n + 1) * (isqrt n + 1) ≤ k * k :=
    Nat.mul_le_mul h1 h1
  have := (isqrt_spec n).2
  omega

theorem isqrt_le_of_lt_sq {k n : ℕ} (h : n < (k + 1) * (k + 1)) : isqrt n ≤ k := by
  by_contra hlt
  have h1 : k + 1 ≤ isqrt n := by omega
  have h2 : (k + 1) * (k + 1) ≤ isqrt n * isqrt n :=
    Nat.mul_le_mul h1 h1
  have := (isqrt_spec n).1
  omega

/-- Floor of a nonnegative real is the integer square root of the floor of its
square; this is what lets the embedding avoid `Real.sqrt` in definitions. -/
theorem floor_eq_isqrt_floor_sq (y : ℝ) (hy : 0 ≤ y) :
    ⌊y⌋ = (isqrt (⌊y ^ 2⌋).toNat : ℤ) := by
  have hsqnn : (0 : ℝ) ≤ y ^ 2 := sq_nonneg y
  have h0 : (0 : ℤ) ≤ ⌊y ^ 2⌋ := Int.floor_nonneg.mpr hsqnn
  set m := (⌊y ^ 2⌋).toNat with hm
  have hcast : (m : ℤ) = ⌊y ^ 2⌋ := Int.toNat_of_nonneg h0
  have hm1 : (m : ℝ) ≤ y ^ 2 := by
    have := Int.floor_le (y ^ 2)
    rw [← hcast] at this
    exact_mod_cast this
  have hm2 : y ^ 2 < (m : ℝ) + 1 := by
    have := Int.lt_floor_add_one (y ^ 2)
    rw [← hcast] at this
    exact_mod_cast this
  obtain ⟨hs1, hs2⟩ := isqrt_spec m
  set s := isqrt m with hs
  have hsle : (s : ℝ) ≤ y := by
    have h1 : ((s : ℝ)) ^ 2 ≤ y ^ 2 := by
      have : ((s * s : ℕ) : ℝ) ≤ (m : ℝ) := by exact_mod_cast hs1
      push_cast at this
      nlinarith
    exact le_of_pow_le_pow_left₀ two_ne_zero hy h1
  have hylt : y < (s : ℝ) + 1 := by
    have h1 : y ^ 2 < ((s : ℝ) + 1) ^ 2 := by
      have h2 : (m : ℝ) + 1 ≤ (((s + 1) * (s + 1) : ℕ) : ℝ) := by exact_mod_cast hs2
      push_cast at h2
      nlinarith
    have hpos : (0 : ℝ) ≤ (s : ℝ) + 1 := by positivity
    exact lt_of_pow_lt_pow_left₀ 2 hpos h1
  rw [Int.floor_eq_iff]
  constructor
  · exact_mod_cast hsle
  · push_cast
    exact hylt

/-- Python's `round(x, 2)` over exact rationals. -/
def round2 (x : ℚ) : ℚ := ((round (x * 100) : ℤ) : ℚ) / 100

theorem round2_mono {x y : ℚ} (h : x ≤ y) : round2 x ≤ round2 y := by
  unfold round2
  have h1 : round (x * 100) ≤ round (y * 100) := by
    rw [round_eq, round_eq]
    exact Int.floor_mono (by linarith)
  have h2 : ((round (x * 100) : ℤ) : ℚ) ≤ ((round (y * 100) : ℤ) : ℚ) := by
    exact_mod_cast h1
  linarith

/-- Embedding of `get_sales_amount(potential, unit, price)` of the source:
`math.floor(potential * (unit / price ** 1.5))`.  Because the floored value
is nonnegative on the domain the program uses (`potential, unit ≥ 0`,
`price > 0`), the floor is encoded through `isqrt`; the theorem
`get_sales_amount_spec` proves this equal to the literal formula. -/
def get_sales_amount (potential unit price : ℚ) : ℤ :=
  (isqrt (⌊(potential * unit) ^ 2 / price ^ 3⌋).toNat : ℤ)

theorem get_sales_amount_nonneg (potential unit price : ℚ) :
    0 ≤ get_sales_amount potential unit price := by
  unfold get_sales_amount
  exact_mod_cast Int.natCast_nonneg _

theorem get_sales_amount_spec (potential unit price : ℚ)
    (hpot : 0 ≤ potential) (hunit : 0 ≤ unit) (hprice : 0 < price) :
    get_sales_amount potential unit price =
      ⌊(potential : ℝ) * ((unit : ℝ) / (price : ℝ) ^ (1.5 : ℝ))⌋ := by
  have hp : (0 : ℝ) < (price : ℝ) := by exact_mod_cast hprice
  have hrpow : (price : ℝ) ^ (1.5 : ℝ) = (price : ℝ) * Real.sqrt (price : ℝ) := by
    rw [show (1.5 : ℝ) = 1 + 1 / 2 by norm_num, Real.rpow_add hp, Real.rpow_one,
      ← Real.sqrt_eq_rpow]
  rw [hrpow]
  have hy : (0 : ℝ) ≤ (potential : ℝ) * ((unit : ℝ) / ((price : ℝ) * Real.sqrt (price : ℝ))) := by
    have h1 : (0 : ℝ) ≤ (potential : ℝ) := by exact_mod_cast hpot
    have h2 : (0 : ℝ) ≤ (unit : ℝ) := by exact_mod_cast hunit
    have h3 : (0 : ℝ) < Real.sqrt (price : ℝ) := Real.sqrt_pos.mpr hp
    positivity
  rw [floor_eq_isqrt_floor_sq _ hy]
  have hsq : ((potential : ℝ) * ((unit : ℝ) / ((price : ℝ) * Real.sqrt (price : ℝ)))) ^ 2 =
      (((potential * unit) ^ 2 / price ^ 3 : ℚ) : ℝ) := by
    have hs : Real.sqrt (price : ℝ) ^ 2 = (price : ℝ) := Real.sq_sqrt hp.le
    have h2 : ((price : ℝ) * Real.sqrt (price : ℝ)) ^ 2 = (price : ℝ) ^ 3 := by
      rw [mul_pow, hs]
      ring
    have h3 : (potential : ℝ) * ((unit : ℝ) / ((price : ℝ) * Real.sqrt (price : ℝ))) =
        ((potential : ℝ) * (unit : ℝ)) / ((price : ℝ) * Real.sqrt (price : ℝ)) :=
      (mul_div_assoc _ _ _).symm
    rw [h3, div_pow, h2]
    push_cast
    ring
  rw [hsq, Rat.floor_cast]
  rfl

/-- One grocery item (the `cups`, `lemons`, `sugar` namespaces of the source):
current price per box/bag, servings per box/bag, minimum price, and the
derived per-serving price.  The source's `min` attribute is called `mincost`
here because `min` is a Lean core function. -/
structure Ingredient where
  cost : ℚ
  count : ℕ
  mincost : ℚ
  unit : ℚ
deriving DecidableEq

/-- Weekly market update of one ingredient (lines `cups.cost = cups.cost +
round(uniform(-1.50, 1.50), 2) ...` of the source); `delta` is the already
rounded uniform draw. -/
def update_cost (ing : Ingredient) (delta : ℚ) : Ingredient :=
  let c := ing.cost + delta
  let c' := if c < ing.mincost then ing.mincost else c
  { ing with cost := c', unit := round2 (c' / (ing.count : ℚ)) }

/-- Typed validation failures (section 7 of the spec; the source signals them
by raising and re-prompting). -/
inductive StandError
  | insufficientFunds
  | invalidPrice
  | invalidQuantity
deriving DecidableEq

/-- Purchase of `q` boxes/bags of one ingredient (the three `Read the number
of ... to purchase` blocks): rejected when the cost exceeds the available
cash, otherwise the stock grows by `q * count` servings and the cash drops
by the cost; `q = 0` (the "no additional" branch) leaves the ledger alone. -/
def purchase (ing : Ingredient) (qty : ℤ) (cash : ℚ) (q : ℕ) :
    Except StandError (ℤ × ℚ) :=
  if 0 < q then
    if (q : ℚ) * ing.cost > cash then .error .insufficientFunds
    else .ok (qty + ((q * ing.count : ℕ) : ℤ), cash - (q : ℚ) * ing.cost)
  else .ok (qty, cash)

/-- Price validation of the `Read the actual price` loop: `price <= 0` is
rejected (and the caller re-prompts), a positive price is accepted. -/
def validate_price (price : ℚ) : Except StandError ℚ :=
  if price ≤ 0 then .error .invalidPrice else .ok price

/-- Demand factors of the ordered forecast table (sunny … stormy). -/
def forecast_factors : List ℚ := [1, 9/10, 7/10, 2/5, 1/10]

/-- Potential sales: `math.floor(weeks.sales * (temperature.value / 100) *
forecast)` with `weeks.sales = 99`. -/
def potential_sales (temp : ℤ) (factor : ℚ) : ℤ :=
  ⌊(99 : ℚ) * ((temp : ℚ) / 100) * factor⌋

/-- Inventory- and potential-capped weekly sales: `min(potential, sales,
inventory.cups, inventory.lemons, inventory.sugar)` (Python's variadic `min`
folded from the left). -/
def actual_sales (potential raw cups lemons sugar : ℤ) : ℤ :=
  min (min (min (min potential raw) cups) lemons) sugar

/-- The running `maxsales/maxprice/maxgross/maxnet` quadruple of the
optimal-price scan. -/
structure BestTuple where
  sales : ℤ
  price : ℚ
  gross : ℚ
  net : ℚ
deriving DecidableEq

/-- The price grid of the scan: `for i in range(25, 2500, 25): price = i / 100`. -/
def price_grid : List ℚ := (List.range' 25 99 25).map (fun (i : ℕ) => (i : ℚ) / 100)

/-- Net profit the demand model assigns to a price (`sales * (price - unit)`). -/
def week_net (potential : ℤ) (unit price : ℚ) : ℚ :=
  (get_sales_amount (potential : ℚ) unit price : ℚ) * (price - unit)

/-- The candidate tuple recorded for a feasible improving price. -/
def best_cand (potential : ℤ) (unit price : ℚ) : BestTuple :=
  let sales := get_sales_amount (potential : ℚ) unit price
  ⟨sales, price, (sales : ℚ) * price, (sales : ℚ) * (price - unit)⟩

/-- Feasibility filter of the scan: `(sales > 0) and (sales <= potential) and
(unit <= price)`. -/
def grid_ok (potential : ℤ) (unit price : ℚ) : Prop :=
  0 < get_sales_amount (potential : ℚ) unit price ∧
    get_sales_amount (potential : ℚ) unit price ≤ potential ∧ unit ≤ price

instance (potential : ℤ) (unit price : ℚ) : Decidable (grid_ok potential unit price) := by
  unfold grid_ok
  infer_instance

/-- One iteration of the optimal-price loop body. -/
def best_step (potential : ℤ) (unit : ℚ) (b : BestTuple) (price : ℚ) : BestTuple :=
  if grid_ok potential unit price ∧ b.net < week_net potential unit price
  then best_cand potential unit price else b

/-- The whole `Loop through a range of prices to find the highest net profit`
scan, starting from zeroed `maxsales/maxprice/maxgross/maxnet`. -/
def best_price_search (potential : ℤ) (unit : ℚ) : BestTuple :=
  price_grid.foldl (best_step potential unit) ⟨0, 0, 0, 0⟩

/-- The `inventory` namespace of the source: stock counts, cash, and the
starting cash used for gain/loss reporting. -/
structure Inventory where
  cups : ℤ
  lemons : ℤ
  sugar : ℤ
  cash : ℚ
  start : ℚ
deriving DecidableEq

/-- Full mutable state of a season: the inventory, the three ingredient
records, the 1-based week counter, the append-only `(sales, price)` summary,
and the two score accumulators (`score.value`, `score.total`). -/
structure State where
  inventory : Inventory
  cups : Ingredient
  lemons : Ingredient
  sugar : Ingredient
  week : ℕ
  summary : List (ℤ × ℚ)
  value : ℚ
  total : ℚ
deriving DecidableEq

/-- One week's random draws and accepted console inputs.  The forecast index
and temperature come from `randrange(0, 5)` and `randrange(69, 100)`, the
three deltas from `round(uniform(-1.50, 1.50), 2)`, the quantities and the
price from the re-prompt loops (hence quantities are naturals and the price
is positive once accepted). -/
structure WeekInput where
  forecast : ℕ
  temp : ℤ
  dCups : ℚ
  dLemons : ℚ
  dSugar : ℚ
  qCups : ℕ
  qLemons : ℕ
  qSugar : ℕ
  price : ℚ
deriving DecidableEq

/-- Season-start state of `start_lemonade`: 30.00 cash, empty stock, the
three ingredient records with their initial prices and derived unit costs. -/
def init_state : State where
  inventory := { cups := 0, lemons := 0, sugar := 0, cash := 30, start := 30 }
  cups := { cost := 5/2, count := 25, mincost := 99/100, unit := round2 ((5/2) / 25) }
  lemons := { cost := 4, count := 8, mincost := 2, unit := round2 ((4 : ℚ) / 8) }
  sugar := { cost := 3, count := 15, mincost := 3/2, unit := round2 ((3 : ℚ) / 15) }
  week := 1
  summary := []
  value := 0
  total := 0

/-- One iteration of the main `while (weeks.current <= weeks.total)` loop.
The result is `none` when an input lies outside what the source guarantees:
the random draws outside their `randrange`/`uniform` ranges, a purchase the
cash cannot cover, or a non-positive price (the source re-prompts in the
last two cases, so an accepted run never contains them). -/
def week_step (s : State) (inp : WeekInput) : Option State :=
  if s.week ≤ 12 ∧ inp.forecast < 5 ∧ 69 ≤ inp.temp ∧ inp.temp ≤ 99 ∧
      -(3/2) ≤ inp.dCups ∧ inp.dCups ≤ 3/2 ∧ -(3/2) ≤ inp.dLemons ∧ inp.dLemons ≤ 3/2 ∧
      -(3/2) ≤ inp.dSugar ∧ inp.dSugar ≤ 3/2 then
    let cups := update_cost s.cups inp.dCups
    let lemons := update_cost s.lemons inp.dLemons
    let sugar := update_cost s.sugar inp.dSugar
    let potential := potential_sales inp.temp (forecast_factors.getD inp.forecast 0)
    let unit := cups.unit + lemons.unit + sugar.unit
    match purchase cups s.inventory.cups s.inventory.cash inp.qCups with
    | .error _ => none
    | .ok (cupsQty, cash1) =>
      match purchase lemons s.inventory.lemons cash1 inp.qLemons with
      | .error _ => none
      | .ok (lemonsQty, cash2) =>
        match purchase sugar s.inventory.sugar cash2 inp.qSugar with
        | .error _ => none
        | .ok (sugarQty, cash3) =>
          match validate_price inp.price with
          | .error _ => none
          | .ok price =>
            let sales := actual_sales potential
              (get_sales_amount (potential : ℚ) unit price) cupsQty lemonsQty sugarQty
            let gross := (sales : ℚ) * price
            let net := (sales : ℚ) * (price - unit)
            let best := best_price_search potential unit
            some { inventory := { cups := cupsQty - sales, lemons := lemonsQty - sales,
                                  sugar := sugarQty - sales, cash := cash3 + gross,
                                  start := s.inventory.start },
                   cups := cups, lemons := lemons, sugar := sugar,
                   week := s.week + 1,
                   summary := s.summary ++ [(sales, price)],
                   value := s.value + net,
                   total := s.total + best.net }
  else none

/-- A season (or a prefix of one) as the source runs it: fold `week_step`
over the list of weekly inputs. -/
def play_season : State → List WeekInput → Option State
  | s, [] => some s
  | s, inp :: rest =>
    match week_step s inp with
    | none => none
    | some s' => play_season s' rest

/-- Final score of the season: `round((score.value / score.total) * 100)`. -/
def season_score (s : State) : ℤ := round (s.value / s.total * 100)

/-- Big-step relation for season runs; `SeasonRun s ins s'` holds when the
scheduler, started at `s` and fed the weekly inputs `ins`, finishes at `s'`. -/
inductive SeasonRun : State → List WeekInput → State → Prop
  | nil (s : State) : SeasonRun s [] s
  | cons {s s' sfin : State} {inp : WeekInput} {rest : List WeekInput}
      (hstep : week_step s inp = some s')
      (hrest : SeasonRun s' rest sfin) : SeasonRun s (inp :: rest) sfin

theorem price_grid_length : price_grid.length = 99 := by
  rw [price_grid, List.length_map, List.length_range']

theorem mem_price_grid_iff (p : ℚ) :
    p ∈ price_grid ↔ ∃ k : ℕ, 1 ≤ k ∧ k ≤ 99 ∧ p = (k : ℚ) * (1/4) := by
  constructor
  · intro hp
    rw [price_grid] at hp
    obtain ⟨a, ha, rfl⟩ := List.mem_map.mp hp
    obtain ⟨i, hi, rfl⟩ := List.mem_range'.mp ha
    refine ⟨i + 1, by omega, by omega, ?_⟩
    push_cast
    ring
  · rintro ⟨k, hk1, hk99, rfl⟩
    rw [price_grid]
    refine List.mem_map.mpr ⟨25 + 25 * (k - 1), List.mem_range'.mpr ⟨k - 1, by omega, rfl⟩, ?_⟩
    have hk : (25 + 25 * (k - 1) : ℕ) = 25 * k := by omega
    rw [hk]
    push_cast
    ring

theorem best_cand_net (potential : ℤ) (unit price : ℚ) :
    (best_cand potential unit price).net = week_net potential unit price := rfl

theorem best_step_pos {potential : ℤ} {unit : ℚ} {b : BestTuple} {price : ℚ}
    (h : grid_ok potential unit price ∧ b.net < week_net potential unit price) :
    best_step potential unit b price = best_cand potential unit price := by
  unfold best_step
  rw [if_pos h]

theorem best_step_neg {potential : ℤ} {unit : ℚ} {b : BestTuple} {price : ℚ}
    (h : ¬(grid_ok potential unit price ∧ b.net < week_net potential unit price)) :
    best_step potential unit b price = b := by
  unfold best_step
  rw [if_neg h]

/-- Characterization of the optimal-price fold from any starting accumulator:
the accumulator's net never decreases, the result dominates the net of every
feasible price of the list, and the result is either the untouched start or
the candidate of some feasible position that strictly beats every feasible
position before it (the first maximum, since later ties do not replace it). -/
theorem foldl_best_spec (potential : ℤ) (unit : ℚ) :
    ∀ (l : List ℚ) (b : BestTuple),
      b.net ≤ (l.foldl (best_step potential unit) b).net ∧
      (∀ p ∈ l, grid_ok potential unit p →
        week_net potential unit p ≤ (l.foldl (best_step potential unit) b).net) ∧
      (l.foldl (best_step potential unit) b = b ∨
        ∃ i : Fin l.length, grid_ok potential unit (l.get i) ∧
          l.foldl (best_step potential unit) b = best_cand potential unit (l.get i) ∧
          b.net < week_net potential unit (l.get i) ∧
          ∀ j : Fin l.length, (j : ℕ) < (i : ℕ) → grid_ok potential unit (l.get j) →
            week_net potential unit (l.get j) < week_net potential unit (l.get i)) := by
  intro l
  induction l with
  | nil =>
    intro b
    refine ⟨le_rfl, by simp, Or.inl rfl⟩
  | cons p t ih =>
    intro b
    by_cases hc : grid_ok potential unit p ∧ b.net < week_net potential unit p
    · have hstep : best_step potential unit b p = best_cand potential unit p :=
        best_step_pos hc
      have hfold : (p :: t).foldl (best_step potential unit) b =
          t.foldl (best_step potential unit) (best_cand potential unit p) := by
        rw [List.foldl_cons, hstep]
      obtain ⟨ih1, ih2, ih3⟩ := ih (best_cand potential unit p)
      rw [best_cand_net] at ih1
      refine ⟨?_, ?_, ?_⟩
      · rw [hfold]
        exact le_of_lt (lt_of_lt_of_le hc.2 ih1)
      · intro q hq hgq
        rw [hfold]
        rcases List.mem_cons.mp hq with hq | hq
        · subst hq
          exact ih1
        · exact ih2 q hq hgq
      · rcases ih3 with heq | ⟨i, hgi, heqi, hlti, hfirst⟩
        · right
          refine ⟨⟨0, by simp⟩, ?_, ?_, ?_, ?_⟩
          · exact hc.1
          · rw [hfold, heq]
            rfl
          · exact hc.2
          · intro j hj hgj
            exact absurd hj (Nat.not_lt_zero _)
        · right
          refine ⟨⟨(i : ℕ) + 1, by simpa using i.isLt⟩, ?_, ?_, ?_, ?_⟩
          · simpa using hgi
          · rw [hfold]
            simpa using heqi
          · rw [best_cand_net] at hlti
            have : b.net < week_net potential unit p := hc.2
            simp only [List.get_cons_succ]
            calc b.net < week_net potential unit p := this
              _ < week_net potential unit (t.get i) := hlti
          · intro j hjlt hgj
            obtain ⟨jv, hjv⟩ := j
            rcases jv with _ | jv
            · rw [best_cand_net] at hlti
              simpa using hlti
            · have hjv' : jv < t.length := by
                simpa using hjv
              have := hfirst ⟨jv, hjv'⟩ (by simpa using hjlt)
              simp only [List.get_cons_succ] at hgj ⊢
              exact this hgj
    · have hstep : best_step potential unit b p = b := best_step_neg hc
      have hfold : (p :: t).foldl (best_step potential unit) b =
          t.foldl (best_step potential unit) b := by
        rw [List.foldl_cons, hstep]
      obtain ⟨ih1, ih2, ih3⟩ := ih b
      have hple : grid_ok potential unit p → week_net potential unit p ≤ b.net := by
        intro hg
        by_contra hgt
        exact hc ⟨hg, lt_of_not_le hgt⟩
      refine ⟨?_, ?_, ?_⟩
      · rw [hfold]
        exact ih1
      · intro q hq hgq
        rw [hfold]
        rcases List.mem_cons.mp hq with hq | hq
        · subst hq
          exact le_trans (hple hgq) ih1
        · exact ih2 q hq hgq
      · rcases ih3 with heq | ⟨i, hgi, heqi, hlti, hfirst⟩
        · left
          rw [hfold, heq]
        · right
          refine ⟨⟨(i : ℕ) + 1, by simpa using i.isLt⟩, ?_, ?_, ?_, ?_⟩
          · simpa using hgi
          · rw [hfold]
            simpa using heqi
          · simpa using hlti
          · intro j hjlt hgj
            obtain ⟨jv, hjv⟩ := j
            rcases jv with _ | jv
            · simp only [List.get_cons_succ]
              exact lt_of_le_of_lt (hple hgj) hlti
            · have hjv' : jv < t.length := by
                simpa using hjv
              have := hfirst ⟨jv, hjv'⟩ (by simpa using hjlt)
              simp only [List.get_cons_succ] at hgj ⊢
              exact this hgj

/-- Maximality on membership form: the scan's final net dominates the net of
every feasible grid price. -/
theorem best_price_search_max (potential : ℤ) (unit : ℚ) :
    ∀ p ∈ price_grid, grid_ok potential unit p →
      week_net potential unit p ≤ (best_price_search potential unit).net :=
  (foldl_best_spec potential unit price_grid ⟨0, 0, 0, 0⟩).2.1

theorem best_price_search_net_nonneg (potential : ℤ) (unit : ℚ) :
    0 ≤ (best_price_search potential unit).net :=
  (foldl_best_spec potential unit price_grid ⟨0, 0, 0, 0⟩).1

theorem get_sales_pos_of {potential unit price : ℚ}
    (hp : 0 < price) (h : price ^ 3 ≤ (potential * unit) ^ 2) :
    0 < get_sales_amount potential unit price := by
  unfold get_sales_amount
  have hp3 : (0 : ℚ) < price ^ 3 := by positivity
  have h1 : (1 : ℚ) ≤ (potential * unit) ^ 2 / price ^ 3 := (one_le_div hp3).mpr h
  have h2 : (1 : ℤ) ≤ ⌊(potential * unit) ^ 2 / price ^ 3⌋ :=
    Int.le_floor.mpr (by exact_mod_cast h1)
  have h3 : 1 * 1 ≤ (⌊(potential * unit) ^ 2 / price ^ 3⌋).toNat := by omega
  have h4 := le_isqrt_of_sq_le h3
  exact_mod_cast h4

theorem get_sales_le_of {potential unit price : ℚ} {B : ℤ} (hB : 0 ≤ B)
    (hp : 0 < price) (h : (potential * unit) ^ 2 < ((B : ℚ) + 1) ^ 2 * price ^ 3) :
    get_sales_amount potential unit price ≤ B := by
  unfold get_sales_amount
  have hp3 : (0 : ℚ) < price ^ 3 := by positivity
  have h1 : (potential * unit) ^ 2 / price ^ 3 < ((B : ℚ) + 1) ^ 2 :=
    (div_lt_iff₀ hp3).mpr h
  have h2 : ⌊(potential * unit) ^ 2 / price ^ 3⌋ < (B + 1) ^ 2 :=
    Int.floor_lt.mpr (by push_cast; exact h1)
  have hcast : (((B.toNat + 1) * (B.toNat + 1) : ℕ) : ℤ) = (B + 1) ^ 2 := by
    push_cast [Int.toNat_of_nonneg hB]
    ring
  have hpos : 0 < (B.toNat + 1) * (B.toNat + 1) := Nat.mul_pos (by omega) (by omega)
  have h3 : (⌊(potential * unit) ^ 2 / price ^ 3⌋).toNat < (B.toNat + 1) * (B.toNat + 1) := by
    omega
  have h4 := isqrt_le_of_lt_sq h3
  omega

/-- Bounds on the weekly `potential` value: integer temperature in `[69, 99]`
and any of the five forecast factors give a potential between 6 and 98. -/
theorem potential_sales_bounds {t : ℤ} (ht1 : 69 ≤ t) (ht2 : t ≤ 99)
    {i : ℕ} (hi : i < 5) :
    6 ≤ potential_sales t (forecast_factors.getD i 0) ∧
      potential_sales t (forecast_factors.getD i 0) ≤ 98 := by
  have htq1 : (69 : ℚ) ≤ (t : ℚ) := by exact_mod_cast ht1
  have htq2 : (t : ℚ) ≤ 99 := by exact_mod_cast ht2
  have key : ∀ f : ℚ, 1/10 ≤ f → f ≤ 1 →
      6 ≤ potential_sales t f ∧ potential_sales t f ≤ 98 := by
    intro f hf1 hf2
    unfold potential_sales
    constructor
    · rw [Int.le_floor]
      push_cast
      nlinarith
    · have : (99 : ℚ) * ((t : ℚ) / 100) * f < 99 := by nlinarith
      have h99 : ⌊(99 : ℚ) * ((t : ℚ) / 100) * f⌋ < 99 := Int.floor_lt.mpr (by push_cast; linarith)
      omega
  interval_cases i
  · exact key 1 (by norm_num) (by norm_num)
  · exact key (9/10) (by norm_num) (by norm_num)
  · exact key (7/10) (by norm_num) (by norm_num)
  · exact key (2/5) (by norm_num) (by norm_num)
  · exact key (1/10) (by norm_num) (by norm_num)

/-- Feasibility and positive profit of the chosen witness price `1` (when the
unit cost is below `1`) for any potential in the weekly range. -/
theorem best_net_pos_low {potential : ℤ} {unit : ℚ}
    (h6 : 6 ≤ potential) (h98 : potential ≤ 98)
    (hu1 : 39/100 ≤ unit) (hu2 : unit < 1) :
    0 < (best_price_search potential unit).net := by
  have hmem : (1 : ℚ) ∈ price_grid := by
    rw [mem_price_grid_iff]
    exact ⟨4, by norm_num, by norm_num, by norm_num⟩
  have hpq6 : (6 : ℚ) ≤ ((potential : ℚ)) := by exact_mod_cast h6
  have hpq98 : ((potential : ℚ)) ≤ 98 := by exact_mod_cast h98
  have hsalespos : 0 < get_sales_amount (potential : ℚ) unit 1 := by
    apply get_sales_pos_of (by norm_num)
    have h1 : (234 : ℚ)/100 ≤ (potential : ℚ) * unit := by nlinarith
    nlinarith
  have hsalesle : get_sales_amount (potential : ℚ) unit 1 ≤ potential := by
    apply get_sales_le_of (by omega) (by norm_num)
    have h1 : (potential : ℚ) * unit < (potential : ℚ) := by nlinarith
    have h2 : (0 : ℚ) < (potential : ℚ) * unit := by nlinarith
    push_cast
    nlinarith
  have hok : grid_ok potential unit 1 := ⟨hsalespos, hsalesle, le_of_lt hu2⟩
  have hnet : 0 < week_net potential unit 1 := by
    unfold week_net
    have h1 : (1 : ℚ) ≤ (get_sales_amount (potential : ℚ) unit 1 : ℚ) := by
      exact_mod_cast hsalespos
    nlinarith
  exact lt_of_lt_of_le hnet (best_price_search_max potential unit 1 hmem hok)

/-- Feasibility and positive profit of the first grid price strictly above the
unit cost, when the unit cost is at least `1` (and at most `4.97`, the bound
reachable within a 12-week season). -/
theorem best_net_pos_high {potential : ℤ} {unit : ℚ}
    (h6 : 6 ≤ potential) (h98 : potential ≤ 98)
    (hu1 : 1 ≤ unit) (hu2 : unit ≤ 497/100) :
    0 < (best_price_search potential unit).net := by
  set m : ℤ := ⌊4 * unit⌋ with hm
  have hm4 : 4 ≤ m := by
    rw [hm]
    rw [Int.le_floor]
    push_cast
    linarith
  have hm19 : m ≤ 19 := by
    rw [hm]
    have : ⌊(4 : ℚ) * unit⌋ ≤ ⌊(1988 : ℚ)/100⌋ := Int.floor_mono (by linarith)
    have h19 : ⌊(1988 : ℚ)/100⌋ = 19 := by
      rw [Int.floor_eq_iff] <;> norm_num
    omega
  set p : ℚ := ((m : ℚ) + 1) / 4 with hp
  have hup : unit < p := by
    rw [hp]
    have := Int.lt_floor_add_one ((4 : ℚ) * unit)
    rw [← hm] at this
    linarith
  have hpu : p ≤ unit + 1/4 := by
    rw [hp]
    have := Int.floor_le ((4 : ℚ) * unit)
    rw [← hm] at this
    linarith
  have hp1 : 1 ≤ p := by linarith
  have hp0 : (0 : ℚ) < p := by linarith
  have hmem : p ∈ price_grid := by
    rw [mem_price_grid_iff]
    refine ⟨(m + 1).toNat, by omega, by omega, ?_⟩
    rw [hp]
    have : ((m + 1).toNat : ℚ) = ((m : ℚ) + 1) := by
      have h0 : ((m + 1).toNat : ℤ) = m + 1 := Int.toNat_of_nonneg (by omega)
      exact_mod_cast h0
    rw [this]
    ring
  have hpq6 : (6 : ℚ) ≤ ((potential : ℚ)) := by exact_mod_cast h6
  have hpq98 : ((potential : ℚ)) ≤ 98 := by exact_mod_cast h98
  have hsalespos : 0 < get_sales_amount (potential : ℚ) unit p := by
    apply get_sales_pos_of hp0
    have h1 : p ≤ 5/4 * unit := by linarith
    have h2 : p ^ 3 ≤ (5/4 * unit) ^ 3 := by
      exact pow_le_pow_left₀ (le_of_lt hp0) h1 3
    have h3 : (5/4 * unit) ^ 3 ≤ 125/64 * (497/100) * unit ^ 2 := by nlinarith
    have h4 : (6 : ℚ) * unit ≤ (potential : ℚ) * unit := by nlinarith
    nlinarith
  have hsalesle : get_sales_amount (potential : ℚ) unit p ≤ potential := by
    apply get_sales_le_of (by omega) hp0
    have h1 : (potential : ℚ) * unit < (potential : ℚ) * p := by nlinarith
    have h2 : p ^ 2 ≤ p ^ 3 := by nlinarith
    have h3 : ((potential : ℚ) * p) ^ 2 ≤ ((potential : ℚ) + 1) ^ 2 * p ^ 2 := by nlinarith
    have h4 : (0 : ℚ) < (potential : ℚ) * unit := by nlinarith
    push_cast
    nlinarith
  have hok : grid_ok potential unit p := ⟨hsalespos, hsalesle, le_of_lt hup⟩
  have hnet : 0 < week_net potential unit p := by
    unfold week_net
    have h1 : (1 : ℚ) ≤ (get_sales_amount (potential : ℚ) unit p : ℚ) := by
      exact_mod_cast hsalespos
    nlinarith
  exact lt_of_lt_of_le hnet (best_price_search_max potential unit p hmem hok)

/-- On the reachable range of potentials and unit costs, the optimal-price
scan always finds a strictly positive net profit. -/
theorem best_net_pos {potential : ℤ} {unit : ℚ}
    (h6 : 6 ≤ potential) (h98 : potential ≤ 98)
    (hu1 : 39/100 ≤ unit) (hu2 : unit ≤ 497/100) :
    0 < (best_price_search potential unit).net := by
  by_cases h1 : unit < 1
  · exact best_net_pos_low h6 h98 hu1 h1
  · exact best_net_pos_high h6 h98 (le_of_not_lt h1) hu2

theorem update_cost_min_le (ing : Ingredient) (delta : ℚ) :
    ing.mincost ≤ (update_cost ing delta).cost := by
  unfold update_cost
  dsimp only
  split_ifs with h
  · exact le_rfl
  · exact le_of_not_lt h

theorem update_cost_le {ing : Ingredient} {delta : ℚ}
    (hmin : ing.mincost ≤ ing.cost) (hd : delta ≤ 3/2) :
    (update_cost ing delta).cost ≤ ing.cost + 3/2 := by
  unfold update_cost
  dsimp only
  split_ifs with h
  · linarith
  · linarith

theorem update_cost_count (ing : Ingredient) (delta : ℚ) :
    (update_cost ing delta).count = ing.count := rfl

theorem update_cost_mincost (ing : Ingredient) (delta : ℚ) :
    (update_cost ing delta).mincost = ing.mincost := rfl

theorem update_cost_unit (ing : Ingredient) (delta : ℚ) :
    (update_cost ing delta).unit =
      round2 ((update_cost ing delta).cost / (ing.count : ℚ)) := rfl

theorem validate_price_ok {p q : ℚ} (h : validate_price p = .ok q) :
    q = p ∧ 0 < p := by
  unfold validate_price at h
  split_ifs at h with hle
  exact ⟨(Except.ok.inj h).symm, lt_of_not_le hle⟩

theorem purchase_ok {ing : Ingredient} {qty : ℤ} {cash : ℚ} {q : ℕ}
    {qty' : ℤ} {cash' : ℚ}
    (h : purchase ing qty cash q = .ok (qty', cash')) :
    (0 < q ∧ (q : ℚ) * ing.cost ≤ cash ∧
      qty' = qty + ((q * ing.count : ℕ) : ℤ) ∧ cash' = cash - (q : ℚ) * ing.cost) ∨
      (q = 0 ∧ qty' = qty ∧ cash' = cash) := by
  unfold purchase at h
  split_ifs at h with h1 h2
  · left
    have hinj := Except.ok.inj h
    simp only [Prod.mk.injEq] at hinj
    exact ⟨h1, le_of_not_lt h2, hinj.1.symm, hinj.2.symm⟩
  · right
    have hinj := Except.ok.inj h
    simp only [Prod.mk.injEq] at hinj
    exact ⟨by omega, hinj.1.symm, hinj.2.symm⟩

theorem purchase_nonneg {ing : Ingredient} {qty : ℤ} {cash : ℚ} {q : ℕ}
    {qty' : ℤ} {cash' : ℚ}
    (h : purchase ing qty cash q = .ok (qty', cash'))
    (hqty : 0 ≤ qty) (hcash : 0 ≤ cash) : 0 ≤ qty' ∧ 0 ≤ cash' := by
  rcases purchase_ok h with ⟨_, hle, hq, hc⟩ | ⟨_, hq, hc⟩
  · constructor
    · rw [hq]
      positivity
    · rw [hc]
      linarith
  · rw [hq, hc]
    exact ⟨hqty, hcash⟩

/-- Inversion of a successful `week_step`: the guard holds, the three
purchases succeed in sequence, the price is positive, and every field of the
next state is the settlement the source computes. -/
theorem week_step_some {s : State} {inp : WeekInput} {s' : State}
    (h : week_step s inp = some s') :
    (s.week ≤ 12 ∧ inp.forecast < 5 ∧ 69 ≤ inp.temp ∧ inp.temp ≤ 99 ∧
      -(3/2) ≤ inp.dCups ∧ inp.dCups ≤ 3/2 ∧ -(3/2) ≤ inp.dLemons ∧ inp.dLemons ≤ 3/2 ∧
      -(3/2) ≤ inp.dSugar ∧ inp.dSugar ≤ 3/2) ∧
    0 < inp.price ∧
    ∃ (cupsQty lemonsQty sugarQty : ℤ) (cash1 cash2 cash3 : ℚ),
      purchase (update_cost s.cups inp.dCups) s.inventory.cups s.inventory.cash
          inp.qCups = .ok (cupsQty, cash1) ∧
      purchase (update_cost s.lemons inp.dLemons) s.inventory.lemons cash1
          inp.qLemons = .ok (lemonsQty, cash2) ∧
      purchase (update_cost s.sugar inp.dSugar) s.inventory.sugar cash2
          inp.qSugar = .ok (sugarQty, cash3) ∧
      s' = (let potential := potential_sales inp.temp (forecast_factors.getD inp.forecast 0)
            let unit := (update_cost s.cups inp.dCups).unit +
              (update_cost s.lemons inp.dLemons).unit + (update_cost s.sugar inp.dSugar).unit
            let sales := actual_sales potential
              (get_sales_amount (potential : ℚ) unit inp.price) cupsQty lemonsQty sugarQty
            { inventory := { cups := cupsQty - sales, lemons := lemonsQty - sales,
                             sugar := sugarQty - sales,
                             cash := cash3 + (sales : ℚ) * inp.price,
                             start := s.inventory.start },
              cups := update_cost s.cups inp.dCups,
              lemons := update_cost s.lemons inp.dLemons,
              sugar := update_cost s.sugar inp.dSugar,
              week := s.week + 1,
              summary := s.summary ++ [(sales, inp.price)],
              value := s.value + (sales : ℚ) * (inp.price - unit),
              total := s.total + (best_price_search potential unit).net }) := by
  unfold week_step at h
  split at h
  case isFalse => exact absurd h (by simp)
  case isTrue hcond =>
    refine ⟨hcond, ?_⟩
    dsimp only at h
    split at h
    case h_1 => exact absurd h (by simp)
    case h_2 x cupsQty cash1 hc1 =>
      split at h
      case h_1 => exact absurd h (by simp)
      case h_2 y lemonsQty cash2 hc2 =>
        split at h
        case h_1 => exact absurd h (by simp)
        case h_2 z sugarQty cash3 hc3 =>
          split at h
          case h_1 => exact absurd h (by simp)
          case h_2 w price hvp =>
            obtain ⟨rfl, hpos⟩ := validate_price_ok hvp
            refine ⟨hpos, cupsQty, lemonsQty, sugarQty, cash1, cash2, cash3,
              hc1, hc2, hc3, ?_⟩
            exact (Option.some.inj h).symm

/-- Season invariant: the three ingredient records keep their servings count
and price floor, each cost stays between its floor and the start price plus
`1.50` per elapsed week, the week counter is at least 1, and the accumulated
best-possible net is nonnegative — strictly positive once a week has been
settled. -/
def CostInv (s : State) : Prop :=
  s.cups.count = 25 ∧ s.cups.mincost = 99/100 ∧
    99/100 ≤ s.cups.cost ∧ s.cups.cost ≤ 5/2 + 3/2 * ((s.week : ℚ) - 1) ∧
    s.lemons.count = 8 ∧ s.lemons.mincost = 2 ∧
    2 ≤ s.lemons.cost ∧ s.lemons.cost ≤ 4 + 3/2 * ((s.week : ℚ) - 1) ∧
    s.sugar.count = 15 ∧ s.sugar.mincost = 3/2 ∧
    3/2 ≤ s.sugar.cost ∧ s.sugar.cost ≤ 3 + 3/2 * ((s.week : ℚ) - 1) ∧
    1 ≤ s.week ∧ 0 ≤ s.total ∧ (1 < s.week → 0 < s.total)

theorem week_step_inv {s : State} {inp : WeekInput} {s' : State}
    (h : week_step s inp = some s') (hinv : CostInv s) : CostInv s' := by
  obtain ⟨hcc, hcm, hcl, hcu, hlc, hlm, hll, hlu, hsc, hsm, hsl, hsu, hw1, ht0, htp⟩ := hinv
  obtain ⟨⟨hw12, hfc, ht1, ht2, hd1, hd2, hd3, hd4, hd5, hd6⟩, hprice,
    cupsQty, lemonsQty, sugarQty, cash1, cash2, cash3, hp1, hp2, hp3, hs'⟩ :=
    week_step_some h
  subst hs'
  dsimp only
  have hwq : ((s.week : ℚ)) ≤ 12 := by exact_mod_cast hw12
  have hCl : (99/100 : ℚ) ≤ (update_cost s.cups inp.dCups).cost := by
    have := update_cost_min_le s.cups inp.dCups
    rw [hcm] at this
    exact this
  have hCu : (update_cost s.cups inp.dCups).cost ≤ s.cups.cost + 3/2 :=
    update_cost_le (by rw [hcm]; exact hcl) hd2
  have hLl : (2 : ℚ) ≤ (update_cost s.lemons inp.dLemons).cost := by
    have := update_cost_min_le s.lemons inp.dLemons
    rw [hlm] at this
    exact this
  have hLu : (update_cost s.lemons inp.dLemons).cost ≤ s.lemons.cost + 3/2 :=
    update_cost_le (by rw [hlm]; exact hll) hd4
  have hSl : (3/2 : ℚ) ≤ (update_cost s.sugar inp.dSugar).cost := by
    have := update_cost_min_le s.sugar inp.dSugar
    rw [hsm] at this
    exact this
  have hSu : (update_cost s.sugar inp.dSugar).cost ≤ s.sugar.cost + 3/2 :=
    update_cost_le (by rw [hsm]; exact hsl) hd6
  have hCu' : (update_cost s.cups inp.dCups).cost ≤ 41/2 := by linarith
  have hLu' : (update_cost s.lemons inp.dLemons).cost ≤ 22 := by linarith
  have hSu' : (update_cost s.sugar inp.dSugar).cost ≤ 21 := by linarith
  have hCunit : (update_cost s.cups inp.dCups).unit =
      round2 ((update_cost s.cups inp.dCups).cost / 25) := by
    rw [update_cost_unit, hcc]
    norm_num
  have hLunit : (update_cost s.lemons inp.dLemons).unit =
      round2 ((update_cost s.lemons inp.dLemons).cost / 8) := by
    rw [update_cost_unit, hlc]
    norm_num
  have hSunit : (update_cost s.sugar inp.dSugar).unit =
      round2 ((update_cost s.sugar inp.dSugar).cost / 15) := by
    rw [update_cost_unit, hsc]
    norm_num
  have ev1 : round2 (99/2500 : ℚ) = 1/25 := by with_unfolding_all rfl
  have ev2 : round2 (41/50 : ℚ) = 41/50 := by with_unfolding_all rfl
  have ev3 : round2 (1/4 : ℚ) = 1/4 := by with_unfolding_all rfl
  have ev4 : round2 (11/4 : ℚ) = 11/4 := by with_unfolding_all rfl
  have ev5 : round2 (1/10 : ℚ) = 1/10 := by with_unfolding_all rfl
  have ev6 : round2 (7/5 : ℚ) = 7/5 := by with_unfolding_all rfl
  have hCunit1 : (1/25 : ℚ) ≤ (update_cost s.cups inp.dCups).unit := by
    rw [hCunit, ← ev1]
    exact round2_mono (by linarith)
  have hCunit2 : (update_cost s.cups inp.dCups).unit ≤ 41/50 := by
    rw [hCunit, ← ev2]
    exact round2_mono (by linarith)
  have hLunit1 : (1/4 : ℚ) ≤ (update_cost s.lemons inp.dLemons).unit := by
    rw [hLunit, ← ev3]
    exact round2_mono (by linarith)
  have hLunit2 : (update_cost s.lemons inp.dLemons).unit ≤ 11/4 := by
    rw [hLunit, ← ev4]
    exact round2_mono (by linarith)
  have hSunit1 : (1/10 : ℚ) ≤ (update_cost s.sugar inp.dSugar).unit := by
    rw [hSunit, ← ev5]
    exact round2_mono (by linarith)
  have hSunit2 : (update_cost s.sugar inp.dSugar).unit ≤ 7/5 := by
    rw [hSunit, ← ev6]
    exact round2_mono (by linarith)
  obtain ⟨hpot6, hpot98⟩ := potential_sales_bounds ht1 ht2 hfc
  have hnetpos : 0 < (best_price_search
      (potential_sales inp.temp (forecast_factors.getD inp.forecast 0))
      ((update_cost s.cups inp.dCups).unit + (update_cost s.lemons inp.dLemons).unit +
        (update_cost s.sugar inp.dSugar).unit)).net :=
    best_net_pos hpot6 hpot98 (by linarith) (by linarith)
  unfold CostInv
  refine ⟨?_, ?_, ?_, ?_, ?_, ?_, ?_, ?_, ?_, ?_, ?_, ?_, ?_, ?_, ?_⟩
  · show (update_cost s.cups inp.dCups).count = 25
    rw [update_cost_count, hcc]
  · show (update_cost s.cups inp.dCups).mincost = 99/100
    rw [update_cost_mincost, hcm]
  · show (99/100 : ℚ) ≤ (update_cost s.cups inp.dCups).cost
    exact hCl
  · show (update_cost s.cups inp.dCups).cost ≤ 5/2 + 3/2 * (((s.week + 1 : ℕ) : ℚ) - 1)
    push_cast
    linarith
  · show (update_cost s.lemons inp.dLemons).count = 8
    rw [update_cost_count, hlc]
  · show (update_cost s.lemons inp.dLemons).mincost = 2
    rw [update_cost_mincost, hlm]
  · show (2 : ℚ) ≤ (update_cost s.lemons inp.dLemons).cost
    exact hLl
  · show (update_cost s.lemons inp.dLemons).cost ≤ 4 + 3/2 * (((s.week + 1 : ℕ) : ℚ) - 1)
    push_cast
    linarith
  · show (update_cost s.sugar inp.dSugar).count = 15
    rw [update_cost_count, hsc]
  · show (update_cost s.sugar inp.dSugar).mincost = 3/2
    rw [update_cost_mincost, hsm]
  · show (3/2 : ℚ) ≤ (update_cost s.sugar inp.dSugar).cost
    exact hSl
  · show (update_cost s.sugar inp.dSugar).cost ≤ 3 + 3/2 * (((s.week + 1 : ℕ) : ℚ) - 1)
    push_cast
    linarith
  · show 1 ≤ s.week + 1
    omega
  · show 0 ≤ s.total + (best_price_search
      (potential_sales inp.temp (forecast_factors.getD inp.forecast 0))
      ((update_cost s.cups inp.dCups).unit + (update_cost s.lemons inp.dLemons).unit +
        (update_cost s.sugar inp.dSugar).unit)).net
    linarith
  · show 1 < s.week + 1 → 0 < s.total + (best_price_search
      (potential_sales inp.temp (forecast_factors.getD inp.forecast 0))
      ((update_cost s.cups inp.dCups).unit + (update_cost s.lemons inp.dLemons).unit +
        (update_cost s.sugar inp.dSugar).unit)).net
    intro _
    linarith

theorem play_season_inv : ∀ (ins : List WeekInput) (s s' : State),
    CostInv s → play_season s ins = some s' → CostInv s' := by
  intro ins
  induction ins with
  | nil =>
    intro s s' hinv h
    simp only [play_season] at h
    rw [← Option.some.inj h]
    exact hinv
  | cons inp rest ih =>
    intro s s' hinv h
    cases hws : week_step s inp with
    | none =>
      rw [play_season, hws] at h
      exact absurd h (by simp)
    | some s1 =>
      rw [play_season, hws] at h
      exact ih s1 s' (week_step_inv hws hinv) h

theorem play_season_total_pos {ins : List WeekInput} {s' : State}
    (h : play_season init_state ins = some s') (hw : s'.week = 13) :
    0 < s'.total := by
  have hinv0 : CostInv init_state := by
    unfold CostInv init_state
    norm_num
  have hinv' := play_season_inv ins init_state s' hinv0 h
  exact hinv'.2.2.2.2.2.2.2.2.2.2.2.2.2.2 (by omega)

theorem season_run_play {s : State} {ins : List WeekInput} {s' : State}
    (h : SeasonRun s ins s') : play_season s ins = some s' := by
  induction h with
  | nil s => rfl
  | cons hstep _ ih =>
    rw [play_season, hstep]
    exact ih

/-- A season in which the player buys one box/bag of everything in week 1,
prices at `0.25` (below the week's unit cost of `0.80`), and afterwards sells
nothing: all random draws are a 99-degree sunny day with zero price drift. -/
def c2_week1 : WeekInput :=
  { forecast := 0, temp := 99, dCups := 0, dLemons := 0, dSugar := 0,
    qCups := 1, qLemons := 1, qSugar := 1, price := 1/4 }

/-- Weeks 2–12 of the loss-making season: buy nothing, price `1.00` (the
lemon stock is exhausted, so nothing sells and the week's net is zero). -/
def c2_rest : WeekInput :=
  { forecast := 0, temp := 99, dCups := 0, dLemons := 0, dSugar := 0,
    qCups := 0, qLemons := 0, qSugar := 0, price := 1 }

/-- The full 12-week input list of the loss-making season. -/
def c2_inputs : List WeekInput := c2_week1 :: List.replicate 11 c2_rest

/-- Result of running the loss-making season. -/
def c2_run : Option State := play_season init_state c2_inputs

/-- Final state of the loss-making season (defaulting to the start state,
which the run never hits since the season completes). -/
def c10_state : State := c2_run.getD init_state

/-- State after one `week_step` from the season start on `c2_week1`. -/
def c7_state : State := (week_step init_state c2_week1).getD init_state

/-- A mid-season accumulator state used to witness the score-range theorem. -/
def c2_mid : State := { init_state with value := 1, total := 2 }

/-- A week input carrying the invalid price `0`. -/
def c8_input : WeekInput :=
  { forecast := 0, temp := 99, dCups := 0, dLemons := 0, dSugar := 0,
    qCups := 0, qLemons := 0, qSugar := 0, price := 0 }

/-- Claim C1, first part as stated: the raw-sales function would return
`floor(potential * ((unitCost / price) ** 1.5))`, hence `25` on the
scenario `potential = 80`, `unitCost = 0.47`, `price = 1.00`.  The code
computes `floor(potential * (unitCost / price ** 1.5))` instead, which is
`floor(80 * 0.47) = 37` there, so the claim's formula and scenario value are
both refuted at this input. -/
theorem C1_raw_sales_counterexample :
    get_sales_amount 80 (47/100) 1 = 37 ∧
      ⌊(80 : ℝ) * (((47 : ℝ)/100) / 1) ^ (1.5 : ℝ)⌋ = 25 ∧ (37 : ℤ) ≠ 25 := by
  refine ⟨by with_unfolding_all rfl, ?_, by norm_num⟩
  have hb : ((47 : ℝ)/100) / 1 = 47/100 := by norm_num
  rw [hb]
  have hx : (0 : ℝ) < 47/100 := by norm_num
  have hrpow : ((47 : ℝ)/100) ^ (1.5 : ℝ) = (47/100) * Real.sqrt ((47 : ℝ)/100) := by
    rw [show (1.5 : ℝ) = 1 + 1 / 2 by norm_num, Real.rpow_add hx, Real.rpow_one,
      ← Real.sqrt_eq_rpow]
  rw [hrpow]
  have hy : (0 : ℝ) ≤ (80 : ℝ) * ((47/100) * Real.sqrt ((47 : ℝ)/100)) := by
    have := Real.sqrt_nonneg ((47 : ℝ)/100)
    positivity
  rw [floor_eq_isqrt_floor_sq _ hy]
  have hs : Real.sqrt ((47 : ℝ)/100) ^ 2 = (47 : ℝ)/100 := Real.sq_sqrt hx.le
  have hsq : ((80 : ℝ) * ((47/100) * Real.sqrt ((47 : ℝ)/100))) ^ 2 =
      ((6644672/10000 : ℚ) : ℝ) := by
    calc ((80 : ℝ) * ((47/100) * Real.sqrt ((47 : ℝ)/100))) ^ 2
        = 6400 * ((47 : ℝ)/100) ^ 2 * (Real.sqrt ((47 : ℝ)/100)) ^ 2 := by ring
      _ = 6400 * ((47 : ℝ)/100) ^ 2 * ((47 : ℝ)/100) := by rw [hs]
      _ = ((6644672/10000 : ℚ) : ℝ) := by push_cast; norm_num
  rw [hsq, Rat.floor_cast]
  with_unfolding_all rfl

/-- Claim C1 (amended): for every `potential ≥ 0`, `unitCost ≥ 0` and
`price > 0` the raw-sales function returns
`floor(potential * (unitCost / price^1.5))` — the exponent applies to the
price alone — and on the scenario `potential = 80`, `unitCost = 0.47`,
`price = 1.00` it returns `floor(80 * 0.47) = 37`. -/
theorem C1_raw_sales_formula (potential unit price : ℚ)
    (hpot : 0 ≤ potential) (hunit : 0 ≤ unit) (hprice : 0 < price) :
    get_sales_amount potential unit price =
      ⌊(potential : ℝ) * ((unit : ℝ) / (price : ℝ) ^ (1.5 : ℝ))⌋ ∧
      get_sales_amount 80 (47/100) 1 = 37 :=
  ⟨get_sales_amount_spec potential unit price hpot hunit hprice,
    by with_unfolding_all rfl⟩

theorem C1_raw_sales_formula_witness :
    (0 : ℚ) ≤ 80 ∧ (0 : ℚ) ≤ 47/100 ∧ (0 : ℚ) < 1 ∧
      (get_sales_amount 80 (47/100) 1 =
        ⌊((80 : ℚ) : ℝ) * (((47/100 : ℚ) : ℝ) / ((1 : ℚ) : ℝ) ^ (1.5 : ℝ))⌋ ∧
        get_sales_amount 80 (47/100) 1 = 37) :=
  ⟨by norm_num, by norm_num, by norm_num,
    C1_raw_sales_formula 80 (47/100) 1 (by norm_num) (by norm_num) (by norm_num)⟩

/-- Claim C2 counterexample: a full 12-week season (the loss-making season
`c2_inputs`) ends with possibleNet `2001/5 > 0` but score `-1 ∉ [0, 100]`,
because the week-1 net is `8 * (0.25 - 0.80) = -4.40`: the score-range part
of the claim fails with possibleNet > 0 alone. -/
theorem C2_score_range_counterexample :
    (c2_run.map (fun s => s.total)).getD 0 = 2001/5 ∧
      (c2_run.map season_score).getD 0 = -1 ∧
      ((0 : ℚ) < 2001/5 ∧ (-1 : ℤ) < 0) := by
  refine ⟨?_, ?_, by norm_num⟩
  · with_unfolding_all rfl
  · with_unfolding_all rfl

/-- Claim C2 (amended): the final score equals
`round(achievedNet / possibleNet * 100)`; it lies in `[0, 100]` whenever in
addition `0 ≤ achievedNet ≤ possibleNet` (with possibleNet > 0 alone the
score can be negative, since the player may sell at a loss). -/
theorem C2_score_range (s : State) :
    season_score s = round (s.value / s.total * 100) ∧
      (0 ≤ s.value → s.value ≤ s.total → 0 < s.total →
        0 ≤ season_score s ∧ season_score s ≤ 100) := by
  refine ⟨rfl, ?_⟩
  intro h0 hvt ht
  have hr0 : (0 : ℚ) ≤ s.value / s.total := div_nonneg h0 (le_of_lt ht)
  have hr1 : s.value / s.total ≤ 1 := (div_le_one ht).mpr hvt
  unfold season_score
  rw [round_eq]
  constructor
  · exact Int.floor_nonneg.mpr (by linarith)
  · have h101 : ⌊s.value / s.total * 100 + 1/2⌋ < 101 := by
      rw [Int.floor_lt]
      push_cast
      linarith
    omega

theorem C2_score_range_witness :
    (0 ≤ c2_mid.value ∧ c2_mid.value ≤ c2_mid.total ∧ 0 < c2_mid.total) ∧
      season_score c2_mid = round (c2_mid.value / c2_mid.total * 100) ∧
      (0 ≤ season_score c2_mid ∧ season_score c2_mid ≤ 100) := by
  have h := C2_score_range c2_mid
  have h1 : (0 : ℚ) ≤ c2_mid.value := by norm_num [c2_mid]
  have h2 : c2_mid.value ≤ c2_mid.total := by norm_num [c2_mid]
  have h3 : (0 : ℚ) < c2_mid.total := by norm_num [c2_mid]
  exact ⟨⟨h1, h2, h3⟩, h.1, h.2 h1 h2 h3⟩

/-- Claim C3: the optimal-price search scans, in ascending order, exactly the
multiples of 0.25 from 0.25 up to 24.99 (i.e. `k * 0.25` for `1 ≤ k ≤ 99`);
its result dominates the net of every feasible grid price (sales > 0, sales
≤ potential, price ≥ unitCost); and when it records anything at all, the
recorded tuple is the candidate of a feasible grid position that strictly
beats every earlier feasible position — the first (lowest-price) maximum,
since later ties do not replace the stored tuple. -/
theorem C3_optimal_search (potential : ℤ) (unit : ℚ) :
    (price_grid.Chain' (fun a b => a < b) ∧
      (∀ p ∈ price_grid, ∃ k : ℕ, 1 ≤ k ∧ k ≤ 99 ∧ p = (k : ℚ) * (1/4)) ∧
      (∀ k : ℕ, 1 ≤ k → k ≤ 99 → ((k : ℚ) * (1/4)) ∈ price_grid)) ∧
    (∀ p ∈ price_grid, grid_ok potential unit p →
      week_net potential unit p ≤ (best_price_search potential unit).net) ∧
    (0 < (best_price_search potential unit).net →
      ∃ i : Fin price_grid.length,
        grid_ok potential unit (price_grid.get i) ∧
        best_price_search potential unit = best_cand potential unit (price_grid.get i) ∧
        ∀ j : Fin price_grid.length, (j : ℕ) < (i : ℕ) →
          grid_ok potential unit (price_grid.get j) →
          week_net potential unit (price_grid.get j) <
            week_net potential unit (price_grid.get i)) := by
  refine ⟨⟨?_, ?_, ?_⟩, best_price_search_max potential unit, ?_⟩
  · have hpw : (List.range' 25 99 25).Pairwise (fun a b => a < b) :=
      List.pairwise_lt_range' 25 99 25 (by norm_num)
    rw [price_grid, List.chain'_map]
    refine hpw.chain'.imp ?_
    intro a b hab
    have hc : (a : ℚ) < (b : ℚ) := by exact_mod_cast hab
    linarith
  · intro p hp
    exact (mem_price_grid_iff p).mp hp
  · intro k h1 h2
    exact (mem_price_grid_iff _).mpr ⟨k, h1, h2, rfl⟩
  · intro hpos
    rcases (foldl_best_spec potential unit price_grid ⟨0, 0, 0, 0⟩).2.2 with heq | hex
    · rw [show best_price_search potential unit =
        price_grid.foldl (best_step potential unit) ⟨0, 0, 0, 0⟩ from rfl, heq] at hpos
      exact absurd hpos (by norm_num)
    · obtain ⟨i, hgi, heqi, _, hfirst⟩ := hex
      exact ⟨i, hgi, heqi, hfirst⟩

theorem C3_optimal_search_witness :
    (1 : ℚ) ∈ price_grid ∧ grid_ok 98 (4/5) 1 ∧
      week_net 98 (4/5) 1 ≤ (best_price_search 98 (4/5)).net := by
  have h := C3_optimal_search 98 (4/5)
  have hmem : (1 : ℚ) ∈ price_grid := by
    have h4 := h.1.2.2 4 (by norm_num) (by norm_num)
    norm_num at h4
    exact h4
  have hok : grid_ok 98 (4/5) 1 := of_decide_eq_true (by with_unfolding_all rfl)
  exact ⟨hmem, hok, h.2.1 1 hmem hok⟩

/-- Claim C4: the weekly sales are `min(rawSales, potential, cupsQty,
lemonsQty, sugarQty)`, hence (for the nonnegative quantities the season
maintains) `0 ≤ actualSales ≤ potential` and `actualSales ≤
min(cupsQty, lemonsQty, sugarQty)` before settlement. -/
theorem C4_actual_sales (potential cups lemons sugar : ℤ) (unit price : ℚ) :
    actual_sales potential (get_sales_amount (potential : ℚ) unit price) cups lemons sugar =
      min (get_sales_amount (potential : ℚ) unit price)
        (min potential (min cups (min lemons sugar))) ∧
      (0 ≤ potential → 0 ≤ cups → 0 ≤ lemons → 0 ≤ sugar →
        0 ≤ actual_sales potential (get_sales_amount (potential : ℚ) unit price)
            cups lemons sugar ∧
        actual_sales potential (get_sales_amount (potential : ℚ) unit price)
            cups lemons sugar ≤ potential ∧
        actual_sales potential (get_sales_amount (potential : ℚ) unit price)
            cups lemons sugar ≤ min cups (min lemons sugar)) := by
  have h0 := get_sales_amount_nonneg (potential : ℚ) unit price
  unfold actual_sales
  constructor
  · omega
  · intro h1 h2 h3 h4
    refine ⟨?_, ?_, ?_⟩ <;> omega

theorem C4_actual_sales_witness :
    (0 : ℤ) ≤ 98 ∧ (0 : ℤ) ≤ 25 ∧ (0 : ℤ) ≤ 8 ∧ (0 : ℤ) ≤ 15 ∧
      actual_sales 98 (get_sales_amount ((98 : ℤ) : ℚ) (4/5) (1/4)) 25 8 15 = 8 ∧
      (0 ≤ actual_sales 98 (get_sales_amount ((98 : ℤ) : ℚ) (4/5) (1/4)) 25 8 15 ∧
        actual_sales 98 (get_sales_amount ((98 : ℤ) : ℚ) (4/5) (1/4)) 25 8 15 ≤ 98 ∧
        actual_sales 98 (get_sales_amount ((98 : ℤ) : ℚ) (4/5) (1/4)) 25 8 15 ≤
          min 25 (min 8 15)) := by
  have h := (C4_actual_sales 98 25 8 15 (4/5) (1/4)).2
    (by norm_num) (by norm_num) (by norm_num) (by norm_num)
  exact ⟨by norm_num, by norm_num, by norm_num, by norm_num,
    by with_unfolding_all rfl, h⟩

/-- The ledger a purchase attempt leaves behind: unchanged on rejection,
updated on success. -/
def purchase_result (ing : Ingredient) (qty : ℤ) (cash : ℚ) (q : ℕ) : ℤ × ℚ :=
  match purchase ing qty cash q with
  | .error _ => (qty, cash)
  | .ok r => r

/-- Claim C5: a purchase of `q > 0` units is rejected with
`InsufficientFunds`, leaving the ledger unchanged, exactly when
`q * ingredientCost` exceeds the cash; otherwise it succeeds, adding
`q * countPerUnit` servings and deducting the cost. -/
theorem C5_purchase (ing : Ingredient) (qty : ℤ) (cash : ℚ) (q : ℕ) (hq : 0 < q) :
    (cash < (q : ℚ) * ing.cost →
      purchase ing qty cash q = .error .insufficientFunds ∧
        purchase_result ing qty cash q = (qty, cash)) ∧
      ((q : ℚ) * ing.cost ≤ cash →
        purchase ing qty cash q =
          .ok (qty + ((q * ing.count : ℕ) : ℤ), cash - (q : ℚ) * ing.cost)) := by
  constructor
  · intro hlt
    have he : purchase ing qty cash q = .error .insufficientFunds := by
      unfold purchase
      rw [if_pos hq, if_pos hlt]
    refine ⟨he, ?_⟩
    unfold purchase_result
    rw [he]
  · intro hle
    unfold purchase
    rw [if_pos hq, if_neg (not_lt.mpr hle)]

theorem C5_purchase_witness :
    (0 < 5 ∧ ((5 : ℕ) : ℚ) * (5/2) ≤ 30 ∧
      purchase ⟨5/2, 25, 99/100, 1/10⟩ 0 30 5 = .ok (125, 35/2)) ∧
      (0 < 1 ∧ (10 : ℚ) < ((1 : ℕ) : ℚ) * 12 ∧
        purchase ⟨12, 8, 2, 3/2⟩ 0 10 1 = .error .insufficientFunds ∧
        purchase_result ⟨12, 8, 2, 3/2⟩ 0 10 1 = (0, 10)) := by
  have h1 := (C5_purchase ⟨5/2, 25, 99/100, 1/10⟩ 0 30 5 (by norm_num)).2 (by norm_num)
  have h2 := (C5_purchase ⟨12, 8, 2, 3/2⟩ 0 10 1 (by norm_num)).1 (by norm_num)
  refine ⟨⟨by norm_num, by norm_num, ?_⟩, by norm_num, by norm_num, h2.1, h2.2⟩
  rw [h1]
  with_unfolding_all rfl

/-- Claim C6: after the weekly market update (cost plus a rounded uniform
draw in `[-1.50, 1.50]`, clamped from below, unit cost recomputed as
`round(cost / countPerUnit, 2)`) the invariant `cost ≥ minCost` holds. -/
theorem C6_market_floor (ing : Ingredient) (delta : ℚ)
    (h1 : -(3/2) ≤ delta) (h2 : delta ≤ 3/2) :
    ing.mincost ≤ (update_cost ing delta).cost ∧
      (update_cost ing delta).unit =
        round2 ((update_cost ing delta).cost / (ing.count : ℚ)) :=
  ⟨update_cost_min_le ing delta, update_cost_unit ing delta⟩

theorem C6_market_floor_witness :
    (-(3/2) : ℚ) ≤ -(3/2) ∧ (-(3/2) : ℚ) ≤ 3/2 ∧
      (⟨5/2, 25, 99/100, 1/10⟩ : Ingredient).mincost ≤
        (update_cost ⟨5/2, 25, 99/100, 1/10⟩ (-(3/2))).cost ∧
      (update_cost ⟨5/2, 25, 99/100, 1/10⟩ (-(3/2))).cost = 1 := by
  have h := C6_market_floor ⟨5/2, 25, 99/100, 1/10⟩ (-(3/2)) (by norm_num) (by norm_num)
  exact ⟨by norm_num, by norm_num, h.1, by with_unfolding_all rfl⟩

/-- Settlement keeps the stock counts and the cash nonnegative: each stock
loses only `actualSales ≤` that stock, and the cash gains the nonnegative
gross revenue. -/
theorem settle_nonneg (pot raw cQ lQ sQ : ℤ) (cash price : ℚ)
    (hpot : 0 ≤ pot) (hraw : 0 ≤ raw) (h1 : 0 ≤ cQ) (h2 : 0 ≤ lQ) (h3 : 0 ≤ sQ)
    (hc : 0 ≤ cash) (hp : 0 ≤ price) :
    0 ≤ cQ - actual_sales pot raw cQ lQ sQ ∧
      0 ≤ lQ - actual_sales pot raw cQ lQ sQ ∧
      0 ≤ sQ - actual_sales pot raw cQ lQ sQ ∧
      0 ≤ cash + (actual_sales pot raw cQ lQ sQ : ℚ) * price := by
  have h0 : 0 ≤ actual_sales pot raw cQ lQ sQ := by
    unfold actual_sales
    omega
  have hle : actual_sales pot raw cQ lQ sQ ≤ cQ ∧
      actual_sales pot raw cQ lQ sQ ≤ lQ ∧ actual_sales pot raw cQ lQ sQ ≤ sQ := by
    unfold actual_sales
    refine ⟨?_, ?_, ?_⟩ <;> omega
  refine ⟨by omega, by omega, by omega, ?_⟩
  have hm : (0 : ℚ) ≤ (actual_sales pot raw cQ lQ sQ : ℚ) * price :=
    mul_nonneg (by exact_mod_cast h0) hp
  linarith

/-- Claim C7: a successful week keeps the integer stock quantities and the
cash nonnegative (settlement subtracts at most what is in stock and adds a
nonnegative gross), and a successful purchase keeps quantity and cash
nonnegative (a purchase that would drive the cash negative is rejected with
`InsufficientFunds` instead). -/
theorem C7_inventory_nonneg (s : State) (inp : WeekInput) (s' : State)
    (h : week_step s inp = some s')
    (h1 : 0 ≤ s.inventory.cups) (h2 : 0 ≤ s.inventory.lemons)
    (h3 : 0 ≤ s.inventory.sugar) (h4 : 0 ≤ s.inventory.cash) :
    (0 ≤ s'.inventory.cups ∧ 0 ≤ s'.inventory.lemons ∧
      0 ≤ s'.inventory.sugar ∧ 0 ≤ s'.inventory.cash) ∧
      (∀ (ing : Ingredient) (qty : ℤ) (cash : ℚ) (q : ℕ) (qty' : ℤ) (cash' : ℚ),
        purchase ing qty cash q = .ok (qty', cash') → 0 ≤ qty → 0 ≤ cash →
          0 ≤ qty' ∧ 0 ≤ cash') ∧
      (∀ (ing : Ingredient) (qty : ℤ) (cash : ℚ) (q : ℕ), 0 < q →
        cash < (q : ℚ) * ing.cost →
        purchase ing qty cash q = .error .insufficientFunds) := by
  obtain ⟨⟨hw12, hfc, ht1, ht2, _, _, _, _, _, _⟩, hprice,
    cQ, lQ, sQ, c1, c2, c3, hp1, hp2, hp3, hs'⟩ := week_step_some h
  obtain ⟨hq1, hc1⟩ := purchase_nonneg hp1 h1 h4
  obtain ⟨hq2, hc2⟩ := purchase_nonneg hp2 h2 hc1
  obtain ⟨hq3, hc3⟩ := purchase_nonneg hp3 h3 hc2
  obtain ⟨hpot6, _⟩ := potential_sales_bounds ht1 ht2 hfc
  subst hs'
  refine ⟨settle_nonneg _ _ _ _ _ _ _ (by omega) (get_sales_amount_nonneg _ _ _)
    hq1 hq2 hq3 hc3 (le_of_lt hprice), ?_, ?_⟩
  · intro ing qty cash q qty' cash' hpu hqty hcash
    exact purchase_nonneg hpu hqty hcash
  · intro ing qty cash q hq hlt
    unfold purchase
    rw [if_pos hq, if_pos hlt]

theorem C7_inventory_nonneg_witness :
    week_step init_state c2_week1 = some c7_state ∧
      (0 ≤ init_state.inventory.cups ∧ 0 ≤ init_state.inventory.lemons ∧
        0 ≤ init_state.inventory.sugar ∧ 0 ≤ init_state.inventory.cash) ∧
      (0 ≤ c7_state.inventory.cups ∧ 0 ≤ c7_state.inventory.lemons ∧
        0 ≤ c7_state.inventory.sugar ∧ 0 ≤ c7_state.inventory.cash) := by
  have hstep : week_step init_state c2_week1 = some c7_state := by
    with_unfolding_all rfl
  have h := C7_inventory_nonneg init_state c2_week1 c7_state hstep
    (by norm_num [init_state]) (by norm_num [init_state])
    (by norm_num [init_state]) (by norm_num [init_state])
  exact ⟨hstep, ⟨by norm_num [init_state], by norm_num [init_state],
    by norm_num [init_state], by norm_num [init_state]⟩, h.1⟩

/-- Claim C8: a non-positive submitted price is rejected with `InvalidPrice`
and the week performs no settlement (the step yields the rejection signal
`none` before any sales computation); the step is total — it either rejects
or returns the next state, it never fails otherwise. -/
theorem C8_price_rejection (s : State) (inp : WeekInput) (p : ℚ) :
    (p ≤ 0 → validate_price p = .error .invalidPrice) ∧
      (0 < p → validate_price p = .ok p) ∧
      (inp.price ≤ 0 → week_step s inp = none) ∧
      (week_step s inp = none ∨ ∃ s', week_step s inp = some s') := by
  refine ⟨?_, ?_, ?_, ?_⟩
  · intro hp
    unfold validate_price
    rw [if_pos hp]
  · intro hp
    unfold validate_price
    rw [if_neg (not_le.mpr hp)]
  · intro hp
    cases hws : week_step s inp with
    | none => rfl
    | some s' =>
      obtain ⟨-, hpos, -⟩ := week_step_some hws
      exact absurd (hpos.trans_le hp) (lt_irrefl 0)
  · cases hws : week_step s inp with
    | none => exact Or.inl rfl
    | some s' => exact Or.inr ⟨s', rfl⟩

theorem C8_price_rejection_witness :
    (0 : ℚ) ≤ 0 ∧ validate_price 0 = .error .invalidPrice ∧
      c8_input.price ≤ 0 ∧ week_step init_state c8_input = none := by
  have h := C8_price_rejection init_state c8_input 0
  refine ⟨le_refl 0, h.1 (le_refl 0), ?_, ?_⟩
  · show (0 : ℚ) ≤ 0
    exact le_refl 0
  · exact h.2.2.1 (by norm_num [c8_input])

/-- Claim C9: season runs are deterministic — two runs from the same start
with the same weekly inputs (the same random draws and the same decisions)
produce the same season log, the same final score, and in fact the same
final state, which is the one the executable scheduler computes. -/
theorem C9_determinism (s : State) (ins : List WeekInput) (s1 s2 : State)
    (h1 : SeasonRun s ins s1) (h2 : SeasonRun s ins s2) :
    s1.summary = s2.summary ∧ season_score s1 = season_score s2 ∧ s1 = s2 ∧
      play_season s ins = some s1 := by
  have e1 := season_run_play h1
  have e2 := season_run_play h2
  have he : s1 = s2 := by
    rw [e1] at e2
    exact Option.some.inj e2
  subst he
  exact ⟨rfl, rfl, rfl, e1⟩

theorem C9_determinism_witness :
    c7_state.summary = c7_state.summary ∧
      season_score c7_state = season_score c7_state ∧
      c7_state = c7_state ∧
      play_season init_state [c2_week1] = some c7_state := by
  have hstep : week_step init_state c2_week1 = some c7_state := by
    with_unfolding_all rfl
  have hrun : SeasonRun init_state [c2_week1] c7_state :=
    .cons hstep (.nil c7_state)
  exact C9_determinism init_state [c2_week1] c7_state c7_state hrun hrun

/-- Claim C10: a season that completes its 12 weeks has a strictly positive
accumulated possibleNet (in particular it is nonzero, so the final score's
unguarded division never divides by zero), and every weekly potential is at
least `floor(99 * 0.69 * 0.10) = 6`. -/
theorem C10_possible_net_positive (ins : List WeekInput) (s' : State)
    (h : play_season init_state ins = some s') (hw : s'.week = 13) :
    0 < s'.total ∧ s'.total ≠ 0 ∧
      (∀ (t : ℤ) (i : ℕ), 69 ≤ t → t ≤ 99 → i < 5 →
        6 ≤ potential_sales t (forecast_factors.getD i 0)) := by
  have hpos := play_season_total_pos h hw
  refine ⟨hpos, ne_of_gt hpos, ?_⟩
  intro t i ht1 ht2 hi
  exact (potential_sales_bounds ht1 ht2 hi).1

theorem C10_possible_net_positive_witness :
    play_season init_state c2_inputs = some c10_state ∧ c10_state.week = 13 ∧
      0 < c10_state.total := by
  have hx1 : play_season init_state c2_inputs = some c10_state := by
    with_unfolding_all rfl
  have hx2 : c10_state.week = 13 := by
    with_unfolding_all rfl
  exact ⟨hx1, hx2, (C10_possible_net_positive c2_inputs c10_state hx1 hx2).1⟩

end Lemonade
